import Mathlib

set_option maxRecDepth 10000

namespace DotenvVaultDiff

/-- Whitespace characters matched by the JavaScript regex class for spaces and
by trim, restricted to the ASCII characters that occur in this program's
line-oriented inputs. -/
def isWS (c : Char) : Bool := c == ' ' || c == '\t' || c == '\n' || c == '\r'

/-- Decimal digit test, as used by the digit class in the version regexes. -/
def isDigitChar (c : Char) : Bool := '0' ≤ c && c ≤ '9'

/-- Numeric value of an all-digit token in radix 10, as parseInt computes it
on the capture group of the version regexes. -/
def digitsToNat (l : List Char) : Nat :=
  l.foldl (fun acc c => acc * 10 + (c.toNat - '0'.toNat)) 0

/-- Maximal digit run at the front of the list; none when there is no digit.
Models the requirement that the regex digit group match at least one digit. -/
def digitsVal (l : List Char) : Option Nat :=
  if (l.takeWhile isDigitChar).isEmpty then none
  else some (digitsToNat (l.takeWhile isDigitChar))

/-- JavaScript parseInt(s, 10): skip leading whitespace, an optional sign,
then the maximal digit run; none models NaN (no digit found). -/
def parseIntJS (s : String) : Option Int :=
  match s.toList.dropWhile isWS with
  | [] => none
  | c :: rest =>
      if c == '-' then (digitsVal rest).map (fun n => -(n : Int))
      else if c == '+' then (digitsVal rest).map (fun n => (n : Int))
      else (digitsVal (c :: rest)).map (fun n => (n : Int))

/-- Whether the first list occurs at the very front of the second. -/
def isPre : List Char → List Char → Bool
  | [], _ => true
  | _ :: _, [] => false
  | a :: as, b :: bs => a == b && isPre as bs

/-- Substring occurrence test, as in JavaScript String.prototype.includes. -/
def containsSub (pat : List Char) : List Char → Bool
  | [] => pat.isEmpty
  | c :: rest => isPre pat (c :: rest) || containsSub pat rest

/-- diffOutput.includes(pat) at the string level. -/
def strContains (s pat : String) : Bool := containsSub pat.toList s.toList

/-- Global regex scan for occurrences of a literal pattern followed by one or
more digits, collecting the numeric value of each maximal digit run.  This is
the behaviour of repeatedly calling exec with a global regex whose shape is
the literal pattern then a digit group: the scan resumes right after the end
of the previous match.  The first argument is fuel, always instantiated with
the length of the scanned text, which bounds the recursion. -/
def collectGo (pat : List Char) : Nat → List Char → List Nat
  | 0, _ => []
  | _ + 1, [] => []
  | fuel + 1, c :: rest =>
      if isPre pat (c :: rest) then
        if ((c :: rest).drop pat.length |>.takeWhile isDigitChar).isEmpty then
          collectGo pat fuel rest
        else
          digitsToNat ((c :: rest).drop pat.length |>.takeWhile isDigitChar)
            :: collectGo pat fuel ((c :: rest).drop pat.length |>.dropWhile isDigitChar)
      else collectGo pat fuel rest

/-- All matches of the literal pattern followed by digits, over a whole text. -/
def collectMatches (pat s : List Char) : List Nat := collectGo pat s.length s

/-- JavaScript split on a single-character separator: every occurrence splits,
empty pieces are kept. -/
def splitOnCharGo (sep : Char) : List Char → List Char → List (List Char)
  | cur, [] => [cur.reverse]
  | cur, c :: rest =>
      if c == sep then cur.reverse :: splitOnCharGo sep [] rest
      else splitOnCharGo sep (c :: cur) rest

/-- str.split(sep) for a one-character separator. -/
def splitOnChar (sep : Char) (s : List Char) : List (List Char) :=
  splitOnCharGo sep [] s

/-- str.trim(): strip whitespace from both ends. -/
def trimL (l : List Char) : List Char :=
  ((l.dropWhile isWS).reverse.dropWhile isWS).reverse

/-- Split on every maximal run of two or more whitespace characters, as the
split on the regex matching two-or-more whitespace does: a lone whitespace
character stays inside its token.  The first argument is fuel, always
instantiated with the length of the text. -/
def splitWS2Go : Nat → List Char → List Char → List (List Char)
  | 0, cur, _ => [cur.reverse]
  | _ + 1, cur, [] => [cur.reverse]
  | fuel + 1, cur, c :: rest =>
      if isWS c then
        match rest with
        | [] => [(c :: cur).reverse]
        | d :: _ =>
            if isWS d then cur.reverse :: splitWS2Go fuel [] (rest.dropWhile isWS)
            else splitWS2Go fuel (c :: cur) rest
      else splitWS2Go fuel (c :: cur) rest

/-- line.split on runs of two or more whitespace characters. -/
def splitWS2 (s : List Char) : List (List Char) := splitWS2Go s.length [] s

/-- str.replace of the first occurrence of the letter v by nothing. -/
def removeFirstV : List Char → List Char
  | [] => []
  | c :: rest => if c == 'v' then rest else c :: removeFirstV rest

/-- One row of the external versions listing, as built by getAllVersions. -/
structure VaultEnvVersion where
  version : String
  fields : String
  user : String
  time : String
deriving DecidableEq, Repr

/-- One entry of the stage-to-range mapping built by getChangedStageVersions. -/
structure StageVersions where
  stage : String
  versions : List Nat
deriving DecidableEq, Repr

/-- The fixed, ordered stage enumeration. -/
def STAGES : List String := ["CI", "DEVELOPMENT", "STAGING", "PRODUCTION"]

/-- Parse one (untrimmed) data line of the versions listing, following the
source exactly: trim, split on runs of two or more spaces, pop the last
token-group as user and time (split on single spaces), take the FIRST
token-group with its first letter v removed as the version, and the next
token-group, when present, as the fields (otherwise the sentinel). -/
def parseVaultLine (line : List Char) : VaultEnvVersion :=
  let parts := splitWS2 (trimL line)
  let userTime := parts.getLast?.getD []
  let rest := parts.dropLast
  let utParts := splitOnChar ' ' userTime
  let user := utParts.head?.getD []
  let time := String.intercalate " " (utParts.tail.map (fun l => String.mk l))
  let version := removeFirstV (rest.head?.getD [])
  let fieldsText : String :=
    match rest.tail.head? with
    | some f => String.mk f
    | none => "N/A"
  ⟨String.mk version, fieldsText, String.mk user, time⟩

/-- The pure part of getAllVersions applied to the stdout of the listing
command: drop the two header lines, drop blank lines, parse each line, and
keep only records whose version string is truthy (non-empty). -/
def parseVersions (stdout : String) : List VaultEnvVersion :=
  ((((splitOnChar '\n' stdout.toList).drop 2).filter
        (fun l => !(trimL l).isEmpty)).map parseVaultLine).filter
    (fun v => v.version != "")

/-- getAllVersions with the external command call abstracted: some stdout on
success, none when the command fails, in which case the catch branch returns
the empty list. -/
def getAllVersions (fetchResult : Option String) : List VaultEnvVersion :=
  match fetchResult with
  | none => []
  | some stdout => parseVersions stdout

/-- The substring test deciding whether a stage counts as changed. -/
def stageChanged (diff stage : String) : Bool :=
  strContains diff ("+DOTENV_VAULT_" ++ stage)
    || strContains diff ("-DOTENV_VAULT_" ++ stage)

/-- Every added-version integer for a stage, collected by the global regex
over the whole diff. -/
def addedVersions (diff stage : String) : List Nat :=
  collectMatches ("+DOTENV_VAULT_" ++ stage ++ "_VERSION=").toList diff.toList

/-- Every removed-version integer for a stage. -/
def removedVersions (diff stage : String) : List Nat :=
  collectMatches ("-DOTENV_VAULT_" ++ stage ++ "_VERSION=").toList diff.toList

/-- Minimum of a list of naturals (seeded from the head; the nil case is only
reached behind an emptiness guard). -/
def minL : List Nat → Nat
  | [] => 0
  | x :: xs => xs.foldl Nat.min x

/-- Maximum of a list of naturals, seeded from the head. -/
def maxL : List Nat → Nat
  | [] => 0
  | x :: xs => xs.foldl Nat.max x

/-- The version range for one changed stage.  When either match collection is
empty the source's min or max over the empty spread is an infinite sentinel
and the array constructor receives a negative length, producing the empty
array; that case is the first branch here.  Otherwise the array is the
integers from one past the minimum removed version up to the maximum added
version, with negative lengths clamped to zero exactly as the array
constructor clamps them (natural subtraction). -/
def stageRange (diff stage : String) : List Nat :=
  if (addedVersions diff stage).isEmpty || (removedVersions diff stage).isEmpty then []
  else
    List.range' (minL (removedVersions diff stage) + 1)
      (maxL (addedVersions diff stage) - minL (removedVersions diff stage))

/-- getChangedStageVersions: the stage-to-range mapping, one entry per stage
whose substring test succeeds, in stage enumeration order. -/
def getChangedStageVersions (diff : String) : List StageVersions :=
  (STAGES.filter (stageChanged diff)).map
    (fun x => StageVersions.mk x (stageRange diff x))

/-- One output line for a matching record. -/
def recordLine (stage : String) (cv : VaultEnvVersion) : String :=
  stage ++ " (" ++ cv.version ++ "): `" ++ cv.fields ++ "`"

/-- Filter the listing records to those whose version string, fed through
parseInt, is a member of the stage's range.  A version that fails to parse is
never a member (the range never contains the NaN sentinel). -/
def matchedRecords (range : List Nat) (records : List VaultEnvVersion) :
    List VaultEnvVersion :=
  records.filter (fun v =>
    match parseIntJS v.version with
    | some n => range.any (fun m => (m : Int) == n)
    | none => false)

/-- The per-stage fragment of the comment body, following the source: a stage
absent from the mapping reports no changes; a present stage fetches its
listing, filters by range membership, and reports either no versions changed
or one line per matching record. -/
def stageFragment (ranges : List StageVersions) (fetch : String → Option String)
    (stage : String) : String :=
  match ranges.find? (fun r => r.stage == stage) with
  | none => stage ++ ": No changes"
  | some cv =>
      if (matchedRecords cv.versions (getAllVersions (fetch stage))).isEmpty then
        stage ++ ": No versions changed"
      else
        String.intercalate "\n"
          ((matchedRecords cv.versions (getAllVersions (fetch stage))).map
            (recordLine stage))

/-- The per-stage fragments in fixed stage enumeration order. -/
def reconcile (ranges : List StageVersions) (fetch : String → Option String) :
    List String :=
  STAGES.map (stageFragment ranges fetch)

/-- generateCommentBody with the diff text and the per-stage listing command
results as inputs. -/
def generateCommentBody (diff : String) (fetch : String → Option String) : String :=
  "Dotenv-vault Diff\n"
    ++ String.intercalate "\n" (reconcile (getChangedStageVersions diff) fetch)

/-- A non-empty list reports isEmpty false. -/
lemma isEmpty_false_of_ne {α : Type} {l : List α} (h : l ≠ []) : l.isEmpty = false := by
  cases l with
  | nil => exact absurd rfl h
  | cons a as => rfl

/-- Membership in a consecutive-integer list. -/
lemma mem_range1 : ∀ (len s n : Nat), n ∈ List.range' s len ↔ (s ≤ n ∧ n < s + len) := by
  intro len
  induction len with
  | zero => intro s n; simp [List.range']
  | succ k ih =>
      intro s n
      rw [List.range', List.mem_cons, ih]
      omega

/-- A non-empty regex match collection means the literal pattern occurs in
the scanned text. -/
lemma collectGo_ne_nil (pat : List Char) :
    ∀ (fuel : Nat) (s : List Char), collectGo pat fuel s ≠ [] →
      containsSub pat s = true := by
  intro fuel
  induction fuel with
  | zero => intro s h; simp [collectGo] at h
  | succ n ih =>
      intro s h
      cases s with
      | nil => simp [collectGo] at h
      | cons c rest =>
          by_cases hp : isPre pat (c :: rest) = true
          · simp [containsSub, hp]
          · rw [collectGo] at h
            rw [if_neg hp] at h
            simp [containsSub, hp, ih rest h]

/-- If a concatenation occurs at the front, so does its left part. -/
lemma isPre_append (a b : List Char) :
    ∀ s, isPre (a ++ b) s = true → isPre a s = true := by
  induction a with
  | nil => intro s _; rfl
  | cons x xs ih =>
      intro s h
      cases s with
      | nil => simp [isPre] at h
      | cons y ys =>
          rw [List.cons_append, isPre, Bool.and_eq_true] at h
          rw [isPre, Bool.and_eq_true]
          exact ⟨h.1, ih ys h.2⟩

/-- If a concatenation occurs as a substring, so does its left part. -/
lemma containsSub_append (a b : List Char) :
    ∀ s, containsSub (a ++ b) s = true → containsSub a s = true := by
  intro s
  induction s with
  | nil =>
      intro h
      simp [containsSub] at h ⊢
      exact h.1
  | cons c rest ih =>
      intro h
      rw [containsSub, Bool.or_eq_true] at h
      rw [containsSub, Bool.or_eq_true]
      rcases h with h | h
      · exact Or.inl (isPre_append a b _ h)
      · exact Or.inr (ih h)

/-- Character list of a string concatenation. -/
lemma toList_append (s t : String) : (s ++ t).toList = s.toList ++ t.toList := by
  cases s
  cases t
  rfl

/-- find? over the stage mapping misses stages outside the scanned list. -/
lemma find_map_filter_none (g : String → List Nat) (p : String → Bool) :
    ∀ (l : List String) (s : String), s ∉ l →
      ((l.filter p).map (fun x => StageVersions.mk x (g x))).find?
          (fun r => r.stage == s) = none := by
  intro l
  induction l with
  | nil => intro s _; rfl
  | cons x xs ih =>
      intro s hs
      have hsx : s ≠ x := fun h => hs (h ▸ List.mem_cons_self x xs)
      have hsxs : s ∉ xs := fun h => hs (List.mem_cons_of_mem x h)
      have hbeq : (x == s) = false := by
        simp only [beq_eq_false_iff_ne, ne_eq]
        exact fun h => hsx h.symm
      by_cases hp : p x
      · rw [List.filter_cons, if_pos hp, List.map_cons, List.find?_cons]
        simp only [hbeq]
        exact ih s hsxs
      · rw [List.filter_cons, if_neg hp]
        exact ih s hsxs

/-- find? over the stage mapping resolves a stage of the scanned list to its
entry exactly when the change predicate holds for it. -/
lemma find_map_filter (g : String → List Nat) (p : String → Bool) :
    ∀ (l : List String), l.Nodup → ∀ s, s ∈ l →
      ((l.filter p).map (fun x => StageVersions.mk x (g x))).find?
          (fun r => r.stage == s)
        = if p s then some ⟨s, g s⟩ else none := by
  intro l
  induction l with
  | nil => intro _ s hs; cases hs
  | cons x xs ih =>
      intro hnd s hs
      have hx : x ∉ xs := (List.nodup_cons.mp hnd).1
      have hnd' : xs.Nodup := (List.nodup_cons.mp hnd).2
      rcases List.mem_cons.mp hs with h | h
      · subst h
        by_cases hp : p s
        · rw [List.filter_cons, if_pos hp, List.map_cons, List.find?_cons]
          simp only [beq_self_eq_true]
          rw [if_pos hp]
        · rw [List.filter_cons, if_neg hp, find_map_filter_none g p xs s hx, if_neg hp]
      · have hne : x ≠ s := fun he => hx (he ▸ h)
        have hbeq : (x == s) = false := by
          simp only [beq_eq_false_iff_ne, ne_eq]
          exact hne
        by_cases hp : p x
        · rw [List.filter_cons, if_pos hp, List.map_cons, List.find?_cons]
          simp only [hbeq]
          exact ih hnd' s h
        · rw [List.filter_cons, if_neg hp]
          exact ih hnd' s h

/-- An empty range matches no listing record. -/
lemma matchedRecords_nil (records : List VaultEnvVersion) :
    matchedRecords [] records = [] := by
  rw [matchedRecords, List.filter_eq_nil_iff]
  intro v _
  cases parseIntJS v.version <;> simp

/-- The filter predicate of matchedRecords holds exactly when the parsed
version is one of the range members. -/
lemma matched_pred_iff (range : List Nat) (r : VaultEnvVersion) :
    ((match parseIntJS r.version with
      | some n => range.any (fun m => (m : Int) == n)
      | none => false) = true)
      ↔ ∃ m ∈ range, parseIntJS r.version = some (m : Int) := by
  cases hp : parseIntJS r.version with
  | none => simp
  | some n =>
      simp only [List.any_eq_true, beq_iff_eq, Option.some.injEq]
      constructor
      · rintro ⟨m, hm, he⟩
        exact ⟨m, hm, he.symm⟩
      · rintro ⟨m, hm, he⟩
        exact ⟨m, hm, he.symm⟩

/-- Claim C1: for every diff text in which a stage has at least one
removed-version marker and at least one added-version marker, the stage is
resolved in the extractor's mapping and its range is exactly the integers
strictly greater than the minimum removed version and at most the maximum
added version. -/
theorem C1_extracted_range (diff stage : String)
    (hmem : stage ∈ STAGES)
    (hrem : removedVersions diff stage ≠ [])
    (hadd : addedVersions diff stage ≠ []) :
    (getChangedStageVersions diff).find? (fun r => r.stage == stage)
        = some ⟨stage, stageRange diff stage⟩
    ∧ ∀ n : Nat, n ∈ stageRange diff stage ↔
        (minL (removedVersions diff stage) < n
          ∧ n ≤ maxL (addedVersions diff stage)) := by
  constructor
  · have hrem' : collectGo ("-DOTENV_VAULT_" ++ stage ++ "_VERSION=").toList
        diff.toList.length diff.toList ≠ [] := by
      unfold removedVersions collectMatches at hrem
      exact hrem
    have hc := collectGo_ne_nil ("-DOTENV_VAULT_" ++ stage ++ "_VERSION=").toList
      diff.toList.length diff.toList hrem'
    rw [toList_append ("-DOTENV_VAULT_" ++ stage) "_VERSION="] at hc
    have hs : strContains diff ("-DOTENV_VAULT_" ++ stage) = true :=
      containsSub_append _ _ _ hc
    have hch : stageChanged diff stage = true := by
      unfold stageChanged
      rw [hs, Bool.or_true]
    unfold getChangedStageVersions
    rw [find_map_filter (stageRange diff) (stageChanged diff) STAGES (by decide)
      stage hmem, if_pos hch]
  · intro n
    have hcond : ((addedVersions diff stage).isEmpty
        || (removedVersions diff stage).isEmpty) = false := by
      rw [isEmpty_false_of_ne hadd, isEmpty_false_of_ne hrem]
      rfl
    unfold stageRange
    simp only [hcond, Bool.false_eq_true, if_false, mem_range1]
    omega

/-- Witness for C1: the two ranges of the spec examples, a membership
obtained through the theorem, and the mapping entry itself. -/
theorem C1_extracted_range_witness :
    stageRange "-DOTENV_VAULT_STAGING_VERSION=3\n+DOTENV_VAULT_STAGING_VERSION=6"
        "STAGING" = [4, 5, 6]
    ∧ stageRange
        "-DOTENV_VAULT_STAGING_VERSION=3\n+DOTENV_VAULT_STAGING_VERSION=5\n+DOTENV_VAULT_STAGING_VERSION=8"
        "STAGING" = [4, 5, 6, 7, 8]
    ∧ 5 ∈ stageRange
        "-DOTENV_VAULT_STAGING_VERSION=3\n+DOTENV_VAULT_STAGING_VERSION=6" "STAGING"
    ∧ (getChangedStageVersions
          "-DOTENV_VAULT_STAGING_VERSION=3\n+DOTENV_VAULT_STAGING_VERSION=6").find?
          (fun r => r.stage == "STAGING")
        = some ⟨"STAGING",
            stageRange "-DOTENV_VAULT_STAGING_VERSION=3\n+DOTENV_VAULT_STAGING_VERSION=6"
              "STAGING"⟩ := by
  refine ⟨by decide, by decide, ?_, ?_⟩
  · exact ((C1_extracted_range
      "-DOTENV_VAULT_STAGING_VERSION=3\n+DOTENV_VAULT_STAGING_VERSION=6" "STAGING"
      (by decide) (by decide) (by decide)).2 5).mpr (by decide)
  · exact (C1_extracted_range
      "-DOTENV_VAULT_STAGING_VERSION=3\n+DOTENV_VAULT_STAGING_VERSION=6" "STAGING"
      (by decide) (by decide) (by decide)).1

/-- Claim C2: whenever a stage's added or removed match collection is empty,
or the minimum removed version is at least the maximum added version, the
computed range for that stage is the empty list: no crash, no negative
length, no nonsensical integers. -/
theorem C2_degenerate_range_empty (diff stage : String)
    (h : addedVersions diff stage = [] ∨ removedVersions diff stage = []
        ∨ maxL (addedVersions diff stage) ≤ minL (removedVersions diff stage)) :
    stageRange diff stage = [] := by
  rcases h with h | h | h
  · unfold stageRange
    simp [h]
  · unfold stageRange
    simp [h]
  · unfold stageRange
    split
    · rfl
    · have hz : maxL (addedVersions diff stage)
          - minL (removedVersions diff stage) = 0 := by omega
      rw [hz]
      rfl

/-- Witness for C2: an add-only diff, a remove-only diff and an inverted
(removed six, added three) diff all resolve to the empty range. -/
theorem C2_degenerate_range_empty_witness :
    stageRange "+DOTENV_VAULT_CI_VERSION=7" "CI" = []
    ∧ stageRange "-DOTENV_VAULT_CI_VERSION=7" "CI" = []
    ∧ stageRange "-DOTENV_VAULT_CI_VERSION=6\n+DOTENV_VAULT_CI_VERSION=3" "CI" = [] :=
  ⟨C2_degenerate_range_empty "+DOTENV_VAULT_CI_VERSION=7" "CI" (Or.inr (Or.inl (by decide))),
   C2_degenerate_range_empty "-DOTENV_VAULT_CI_VERSION=7" "CI" (Or.inl (by decide)),
   C2_degenerate_range_empty "-DOTENV_VAULT_CI_VERSION=6\n+DOTENV_VAULT_CI_VERSION=3" "CI"
     (Or.inr (Or.inr (by decide)))⟩

/-- Counterexample to claim C3: the diff has an added-version marker for CI
and no removed-version marker at all, yet CI appears in the extractor's
mapping (with an empty range). -/
theorem C3_counterexample :
    removedVersions "+DOTENV_VAULT_CI_VERSION=5" "CI" = []
    ∧ getChangedStageVersions "+DOTENV_VAULT_CI_VERSION=5" = [⟨"CI", []⟩] := by
  decide

/-- Claim C3 as amended: a stage of the enumeration appears in the mapping
exactly when the diff contains its added-line or removed-line substring
marker; both marker kinds are not required. -/
theorem C3_membership_amended (diff stage : String) (hmem : stage ∈ STAGES) :
    ((getChangedStageVersions diff).find? (fun r => r.stage == stage)).isSome
      = stageChanged diff stage := by
  unfold getChangedStageVersions
  rw [find_map_filter (stageRange diff) (stageChanged diff) STAGES (by decide)
    stage hmem]
  by_cases h : stageChanged diff stage = true
  · rw [if_pos h, h]
    rfl
  · rw [if_neg h]
    simp only [Bool.not_eq_true] at h
    rw [h]
    rfl

/-- Witness for the amended C3. -/
theorem C3_membership_amended_witness :
    ((getChangedStageVersions "+DOTENV_VAULT_CI_VERSION=9").find?
        (fun r => r.stage == "CI")).isSome
      = stageChanged "+DOTENV_VAULT_CI_VERSION=9" "CI" :=
  C3_membership_amended "+DOTENV_VAULT_CI_VERSION=9" "CI" (by decide)

/-- Counterexample to claim C4: on the claimed listing line the parser takes
the first column as the version token, so the single record has version
string field-a (which does not parse as an integer at all), not the integer
seven, and its fields value is just field-b. -/
theorem C4_counterexample :
    parseVersions "h1\nh2\nfield-a  field-b   v7  alice 2024-01-01 10:00"
        = [⟨"field-a", "field-b", "alice", "2024-01-01 10:00"⟩]
    ∧ parseIntJS "field-a" = none := by
  decide

/-- Claim C4 as amended: parsing the two header lines followed by that data
line yields exactly one record, whose version string is the first column
field-a, whose fields value is the second column field-b, whose user is
alice and whose time is the timestamp. -/
theorem C4_parse_amended :
    parseVersions "h1\nh2\nfield-a  field-b   v7  alice 2024-01-01 10:00"
        = [⟨"field-a", "field-b", "alice", "2024-01-01 10:00"⟩] := by
  decide

/-- Counterexample to claim C5: a data row whose version token is the
non-numeric word abc survives the parser (only emptiness is checked), even
though that token does not parse as a positive integer. -/
theorem C5_counterexample :
    parseVersions "h1\nh2\nabc  def ghi" = [⟨"abc", "N/A", "def", "ghi"⟩]
    ∧ parseIntJS "abc" = none := by
  decide

/-- Claim C5 as amended: the parser drops exactly the rows whose version
token ends up empty; every record it returns has a non-empty version string,
but that string need not parse as a positive integer. -/
theorem C5_version_nonempty_amended (listing : String) (r : VaultEnvVersion)
    (h : r ∈ parseVersions listing) : r.version ≠ "" := by
  unfold parseVersions at h
  have h2 := (List.mem_filter.mp h).2
  intro he
  rw [he] at h2
  simp at h2

/-- Witness for the amended C5. -/
theorem C5_version_nonempty_amended_witness :
    (⟨"abc", "N/A", "def", "ghi"⟩ : VaultEnvVersion).version ≠ "" :=
  C5_version_nonempty_amended "h1\nh2\nabc  def ghi" ⟨"abc", "N/A", "def", "ghi"⟩
    (by decide)

/-- Claim C6: when the listing command for a stage fails, the listing step
yields the empty sequence, the reconciler still produces one fragment per
stage of the fixed enumeration, and the failed stage is rendered either as
no changes (when it is absent from the mapping) or as no versions changed;
the failure is absorbed, never propagated. -/
theorem C6_graceful_degrade (diff : String) (fetch : String → Option String)
    (stage : String) (hf : fetch stage = none) :
    getAllVersions (fetch stage) = []
    ∧ (reconcile (getChangedStageVersions diff) fetch).length = 4
    ∧ (stageFragment (getChangedStageVersions diff) fetch stage
          = stage ++ ": No changes"
        ∨ stageFragment (getChangedStageVersions diff) fetch stage
          = stage ++ ": No versions changed") := by
  refine ⟨by rw [hf]; rfl, by rfl, ?_⟩
  cases hfind : (getChangedStageVersions diff).find? (fun r => r.stage == stage) with
  | none =>
      left
      simp only [stageFragment, hfind]
  | some cv =>
      right
      simp only [stageFragment, hfind, hf]
      rfl

/-- Witness for C6. -/
theorem C6_graceful_degrade_witness :
    getAllVersions ((fun _ => (none : Option String)) "DEVELOPMENT") = []
    ∧ (reconcile (getChangedStageVersions "") (fun _ => none)).length = 4
    ∧ (stageFragment (getChangedStageVersions "") (fun _ => none) "DEVELOPMENT"
          = "DEVELOPMENT" ++ ": No changes"
        ∨ stageFragment (getChangedStageVersions "") (fun _ => none) "DEVELOPMENT"
          = "DEVELOPMENT" ++ ": No versions changed") :=
  C6_graceful_degrade "" (fun _ => none) "DEVELOPMENT" rfl

/-- Claim C7: the reconciler emits one fragment per stage in the fixed order
CI, DEVELOPMENT, STAGING, PRODUCTION; a stage absent from the mapping yields
exactly the no-changes line, a present stage with an empty filtered record
set yields exactly the no-versions-changed line, and otherwise one line per
matching record, in listing order, of the stage-version-fields form (the
fields text is wrapped in backquotes in the rendered line). -/
theorem C7_fragment_cases (ranges : List StageVersions)
    (fetch : String → Option String) :
    reconcile ranges fetch
        = [stageFragment ranges fetch "CI", stageFragment ranges fetch "DEVELOPMENT",
           stageFragment ranges fetch "STAGING", stageFragment ranges fetch "PRODUCTION"]
    ∧ ∀ stage : String,
        (ranges.find? (fun r => r.stage == stage) = none →
          stageFragment ranges fetch stage = stage ++ ": No changes")
        ∧ ∀ cv : StageVersions, ranges.find? (fun r => r.stage == stage) = some cv →
            (matchedRecords cv.versions (getAllVersions (fetch stage)) = [] →
              stageFragment ranges fetch stage = stage ++ ": No versions changed")
            ∧ (matchedRecords cv.versions (getAllVersions (fetch stage)) ≠ [] →
              stageFragment ranges fetch stage
                = String.intercalate "\n"
                    ((matchedRecords cv.versions (getAllVersions (fetch stage))).map
                      (recordLine stage))) := by
  refine ⟨rfl, ?_⟩
  intro stage
  constructor
  · intro h
    simp only [stageFragment, h]
  · intro cv hcv
    constructor
    · intro hm
      simp only [stageFragment, hcv, hm, List.isEmpty_nil, if_true]
    · intro hm
      have hie := isEmpty_false_of_ne hm
      simp only [stageFragment, hcv, hie, Bool.false_eq_true, if_false]

/-- Witness for C7: the three fragment shapes at concrete inputs. -/
theorem C7_fragment_cases_witness :
    stageFragment [] (fun _ => none) "CI" = "CI" ++ ": No changes"
    ∧ stageFragment [⟨"CI", []⟩] (fun _ => none) "CI"
        = "CI" ++ ": No versions changed"
    ∧ stageFragment [⟨"STAGING", [4]⟩]
          (fun _ => some "h1\nh2\nv4  KEY_A  alice 2024")
          "STAGING"
        = String.intercalate "\n"
            ((matchedRecords [4]
                (getAllVersions ((fun _ => some "h1\nh2\nv4  KEY_A  alice 2024")
                  "STAGING"))).map
              (recordLine "STAGING")) :=
  ⟨((C7_fragment_cases [] (fun _ => none)).2 "CI").1 rfl,
   ((((C7_fragment_cases [⟨"CI", []⟩] (fun _ => none)).2 "CI").2 ⟨"CI", []⟩ rfl)).1
     (by decide),
   ((((C7_fragment_cases [⟨"STAGING", [4]⟩]
        (fun _ => some "h1\nh2\nv4  KEY_A  alice 2024")).2 "STAGING").2
      ⟨"STAGING", [4]⟩ rfl)).2 (by decide)⟩

/-- Claim C8: the records rendered for a changed stage are exactly the
listing records whose parsed version is a member of the stage's range, kept
in listing order (the filtered list is a sublist of the listing). -/
theorem C8_range_filtering (range : List Nat) (records : List VaultEnvVersion) :
    List.Sublist (matchedRecords range records) records
    ∧ ∀ r : VaultEnvVersion,
        r ∈ matchedRecords range records
          ↔ r ∈ records ∧ ∃ m ∈ range, parseIntJS r.version = some (m : Int) := by
  constructor
  · unfold matchedRecords
    exact List.filter_sublist records
  · intro r
    unfold matchedRecords
    rw [List.mem_filter]
    constructor
    · rintro ⟨h1, h2⟩
      exact ⟨h1, (matched_pred_iff range r).mp h2⟩
    · rintro ⟨h1, h2⟩
      exact ⟨h1, (matched_pred_iff range r).mpr h2⟩

/-- Witness for C8: with listed versions one through six and range four to
six, record four is selected through the theorem's characterization. -/
theorem C8_range_filtering_witness :
    (⟨"4", "d", "u", "t"⟩ : VaultEnvVersion)
        ∈ matchedRecords [4, 5, 6]
            [⟨"1", "a", "u", "t"⟩, ⟨"2", "b", "u", "t"⟩, ⟨"3", "c", "u", "t"⟩,
             ⟨"4", "d", "u", "t"⟩, ⟨"5", "e", "u", "t"⟩, ⟨"6", "f", "u", "t"⟩] :=
  ((C8_range_filtering [4, 5, 6]
      [⟨"1", "a", "u", "t"⟩, ⟨"2", "b", "u", "t"⟩, ⟨"3", "c", "u", "t"⟩,
       ⟨"4", "d", "u", "t"⟩, ⟨"5", "e", "u", "t"⟩, ⟨"6", "f", "u", "t"⟩]).2
    ⟨"4", "d", "u", "t"⟩).mpr ⟨by decide, 4, by decide, by decide⟩

/-- Claim C9: the comment body is a pure, deterministic function of the diff
text and the per-stage listing results; equal inputs give byte-identical
bodies. -/
theorem C9_deterministic (diff1 diff2 : String)
    (fetch1 fetch2 : String → Option String)
    (hd : diff1 = diff2) (hf : ∀ s, fetch1 s = fetch2 s) :
    generateCommentBody diff1 fetch1 = generateCommentBody diff2 fetch2 := by
  subst hd
  have hfe : fetch1 = fetch2 := funext hf
  rw [hfe]

/-- Witness for C9. -/
theorem C9_deterministic_witness :
    generateCommentBody "-DOTENV_VAULT_CI_VERSION=1\n+DOTENV_VAULT_CI_VERSION=2"
        (fun _ => none)
      = generateCommentBody "-DOTENV_VAULT_CI_VERSION=1\n+DOTENV_VAULT_CI_VERSION=2"
        (fun _ => none) :=
  C9_deterministic "-DOTENV_VAULT_CI_VERSION=1\n+DOTENV_VAULT_CI_VERSION=2"
    "-DOTENV_VAULT_CI_VERSION=1\n+DOTENV_VAULT_CI_VERSION=2"
    (fun _ => none) (fun _ => none) rfl (fun _ => rfl)

/-- Claim C10: change detection is a plain substring test on the two marker
substrings, not restricted to the version key; a diff touching only the CI
encrypted-blob line still places CI in the mapping, with an empty range, and
whatever the listing returns the CI fragment reads no versions changed
rather than no changes. -/
theorem C10_substring_detection :
    (∀ diff stage : String,
        stageChanged diff stage
          = (strContains diff ("+DOTENV_VAULT_" ++ stage)
              || strContains diff ("-DOTENV_VAULT_" ++ stage)))
    ∧ getChangedStageVersions "+DOTENV_VAULT_CI=\"W3zZ\"" = [⟨"CI", []⟩]
    ∧ ∀ fetch : String → Option String,
        stageFragment (getChangedStageVersions "+DOTENV_VAULT_CI=\"W3zZ\"") fetch "CI"
          = "CI: No versions changed" := by
  refine ⟨fun _ _ => rfl, by decide, ?_⟩
  intro fetch
  have h1 : getChangedStageVersions "+DOTENV_VAULT_CI=\"W3zZ\""
      = [⟨"CI", []⟩] := by decide
  rw [h1]
  have hfind : ([⟨"CI", ([] : List Nat)⟩] : List StageVersions).find?
      (fun r => r.stage == "CI") = some ⟨"CI", []⟩ := rfl
  simp only [stageFragment, hfind, matchedRecords_nil, List.isEmpty_nil, if_true]
  rfl

/-- Witness for C10: the detection equation read off at a concrete diff. -/
theorem C10_substring_detection_witness :
    stageChanged "+DOTENV_VAULT_CI=\"W3zZ\"" "CI"
      = (strContains "+DOTENV_VAULT_CI=\"W3zZ\"" ("+DOTENV_VAULT_" ++ "CI")
          || strContains "+DOTENV_VAULT_CI=\"W3zZ\"" ("-DOTENV_VAULT_" ++ "CI")) :=
  C10_substring_detection.1 "+DOTENV_VAULT_CI=\"W3zZ\"" "CI"

end DotenvVaultDiff
